import Mathlib

/-!
Shallow embedding of the ULID codec and generator engine of
`ulid-generator-mcp` (files `src/ulid-cloudflare.ts` and
`src/ulid-generator.ts`), together with proofs of the spec's
testable properties.

JS strings are embedded as `List Char`; JS numbers are embedded as `Int`
(or `Nat` once nonnegativity is established) — all arithmetic performed
by the engine stays far below 2^53, so plain integer arithmetic is exact.
Thrown exceptions are embedded as `Except UlidError`.  The sources of
randomness (`crypto.getRandomValues`) and wall-clock time (`Date.now()`)
are embedded as explicit parameters: an `rng : Nat → Nat` giving the
bytes drawn, and a `now : Int` giving the value of a clock read.
-/

namespace UlidMcp

/-- Error kinds thrown by the engine (spec §7). -/
inductive UlidError where
  | invalidLength
  | invalidCharacter
  | timeRange
deriving DecidableEq, Repr

/-- `const ENCODING = '0123456789ABCDEFGHJKMNPQRSTVWXYZ'` (Crockford base32). -/
def ENCODING : List Char := "0123456789ABCDEFGHJKMNPQRSTVWXYZ".data

/-- `const ENCODING_LEN = ENCODING.length`. -/
def ENCODING_LEN : Nat := ENCODING.length

/-- `const TIME_MAX = Math.pow(2, 48) - 1`. -/
def TIME_MAX : Int := 2 ^ 48 - 1

/-- `const RANDOM_LEN = 16`. -/
def RANDOM_LEN : Nat := 16

/-- `ENCODING.charAt(n)` / `ENCODING[n]` for an index known to be in range. -/
def encChar (n : Nat) : Char := ENCODING.getD n ' '

/-- JS `String.prototype.indexOf` restricted to single characters:
index of the first occurrence of `c` in `l`, `none` when absent
(JS returns `-1`). -/
def charIndex (c : Char) : List Char → Option Nat
  | [] => none
  | d :: rest => if d = c then some 0 else (charIndex c rest).map (· + 1)

/-- `ENCODING.indexOf(c)`. -/
def indexOfChar (c : Char) : Option Nat := charIndex c ENCODING

/-- `encodeTime(time, len)`: big-endian base-32 rendering of `time` into
exactly `len` characters, least significant digit computed first and
prepended last. -/
def encodeTime : Nat → Nat → List Char
  | _, 0 => []
  | time, n + 1 => encodeTime (time / ENCODING_LEN) n ++ [encChar (time % ENCODING_LEN)]

/-- Loop of `decodeTime`: left fold `acc = acc * ENCODING_LEN + index`,
failing on a character outside the alphabet. -/
def decodeTimeGo : List Char → Nat → Except UlidError Nat
  | [], acc => .ok acc
  | c :: rest, acc =>
    match indexOfChar c with
    | none => .error .invalidCharacter
    | some i => decodeTimeGo rest (acc * ENCODING_LEN + i)

/-- `decodeTime(encodedTime)` from `src/ulid-cloudflare.ts`. -/
def decodeTime (s : List Char) : Except UlidError Nat :=
  decodeTimeGo s 0

/-- `encodeRandom(len)`: `len` independent random bytes, each reduced
`% ENCODING_LEN` and mapped to its alphabet symbol.  The byte stream is
the explicit parameter `rng`. -/
def encodeRandom (rng : Nat → Nat) (len : Nat) : List Char :=
  (List.range len).map fun i => encChar (rng i % ENCODING_LEN)

/-- The scan of `incrementBase32`, acting on the reversed character list
(head = least significant digit).  Returns `none` on full carry-out,
`some` of the reversed result otherwise; errors on a character outside
the alphabet, exactly where the JS loop throws. -/
def incrementRev : List Char → Except UlidError (Option (List Char))
  | [] => .ok none
  | c :: rest =>
    match indexOfChar c with
    | none => .error .invalidCharacter
    | some idx =>
      if idx < ENCODING_LEN - 1 then
        .ok (some (encChar (idx + 1) :: rest))
      else
        match incrementRev rest with
        | .error e => .error e
        | .ok none => .ok none
        | .ok (some rest2) => .ok (some (encChar 0 :: rest2))

/-- `incrementBase32(str)` from `src/ulid-cloudflare.ts`: add 1 to a
fixed-width big-endian base-32 counter; on full carry-out return a fresh
random string of the same length. -/
def incrementBase32 (rng : Nat → Nat) (s : List Char) : Except UlidError (List Char) :=
  match incrementRev s.reverse with
  | .error e => .error e
  | .ok none => .ok (encodeRandom rng s.length)
  | .ok (some l) => .ok l.reverse

/-- The result record `{ ulid, timestamp, randomness }`. -/
structure GenerationResult where
  ulid : List Char
  timestamp : Int
  randomness : List Char
deriving DecidableEq, Repr

/-- `seedTime || Date.now()`: JS `||` takes the right operand when the
left is absent or `0` (falsy). -/
def effTime (seedTime : Option Int) (now : Int) : Int :=
  match seedTime with
  | none => now
  | some t => if t = 0 then now else t

/-- `generateCloudflareUlid(seedTime?)`:
validate the effective timestamp against `[0, TIME_MAX]`, then
concatenate `encodeTime(timestamp, 10)` with `encodeRandom(RANDOM_LEN)`. -/
def generateCloudflareUlid (rng : Nat → Nat) (seedTime : Option Int) (now : Int) :
    Except UlidError GenerationResult :=
  let timestamp := effTime seedTime now
  if timestamp < 0 ∨ TIME_MAX < timestamp then .error .timeRange
  else
    let timeStr := encodeTime timestamp.toNat 10
    let randomStr := encodeRandom rng RANDOM_LEN
    .ok { ulid := timeStr ++ randomStr, timestamp := timestamp, randomness := randomStr }

/-- The mutable fields of `CloudflareMonotonicUlidGenerator`:
the constructor argument `seedTime` plus `lastTime`/`lastRandom`. -/
structure MonotonicState where
  seedTime : Option Int
  lastTime : Int
  lastRandom : List Char
deriving DecidableEq, Repr

/-- A freshly constructed `CloudflareMonotonicUlidGenerator`:
`lastTime = 0`, `lastRandom = ''`. -/
def MonotonicState.init (seedTime : Option Int) : MonotonicState :=
  { seedTime := seedTime, lastTime := 0, lastRandom := [] }

/-- `CloudflareMonotonicUlidGenerator.generateMonotonicUlid()`:
same-timestamp calls increment the previous randomness, a new timestamp
reseeds randomly; `lastRandom` is updated with the emitted randomness. -/
def generateMonotonicUlid (st : MonotonicState) (rng : Nat → Nat) (now : Int) :
    Except UlidError (GenerationResult × MonotonicState) :=
  let timestamp := effTime st.seedTime now
  if timestamp < 0 ∨ TIME_MAX < timestamp then .error .timeRange
  else
    let timeStr := encodeTime timestamp.toNat 10
    if timestamp = st.lastTime then
      match incrementBase32 rng st.lastRandom with
      | .error e => .error e
      | .ok randomStr =>
        .ok ({ ulid := timeStr ++ randomStr, timestamp := timestamp, randomness := randomStr },
             { st with lastRandom := randomStr })
    else
      let randomStr := encodeRandom rng RANDOM_LEN
      .ok ({ ulid := timeStr ++ randomStr, timestamp := timestamp, randomness := randomStr },
           { st with lastTime := timestamp, lastRandom := randomStr })

/-- The parse result `{ ulid, timestampPart, randomnessPart, timestamp }`
(the derived `date` field is omitted: it is `new Date(timestamp)`). -/
structure ParseResult where
  ulid : List Char
  timestampPart : List Char
  randomnessPart : List Char
  timestamp : Nat
deriving DecidableEq, Repr

/-- `parseCloudflareUlid(ulidString)`: reject lengths other than 26,
split at offset 10, decode the timestamp part. -/
def parseCloudflareUlid (s : List Char) : Except UlidError ParseResult :=
  if s.length ≠ 26 then .error .invalidLength
  else
    let timestampPart := s.take 10
    let randomnessPart := s.drop 10
    match decodeTime timestampPart with
    | .error e => .error e
    | .ok timestamp =>
      .ok { ulid := s, timestampPart := timestampPart,
            randomnessPart := randomnessPart, timestamp := timestamp }

/-- N successive `generateMonotonicUlid` calls on one generator instance,
each call drawing from its own random stream, all sharing the clock
value `now`; collects the results in call order. -/
def runMonotonic (rngs : List (Nat → Nat)) (st : MonotonicState) (now : Int) :
    Except UlidError (List GenerationResult × MonotonicState) :=
  match rngs with
  | [] => .ok ([], st)
  | rng :: rest =>
    match generateMonotonicUlid st rng now with
    | .error e => .error e
    | .ok (r, st1) =>
      match runMonotonic rest st1 now with
      | .error e => .error e
      | .ok (rs, st2) => .ok (r :: rs, st2)

/-- Modelled from the spec: the external `ulid` npm package entry point
`ulid(seedTime)` used by `src/ulid-generator.ts` — the package's own code
is not part of this repository.  Per spec §4.2/§4.5 it validates the
supplied time against `[0, TIME_MAX]` (time-range error otherwise) and
produces `encodeTime(time, 10) ++ encodeRandom(16)`. -/
def ulidLib (rng : Nat → Nat) (t : Int) : Except UlidError (List Char) :=
  if t < 0 ∨ TIME_MAX < t then .error .timeRange
  else .ok (encodeTime t.toNat 10 ++ encodeRandom rng RANDOM_LEN)

/-- `generateStandardUlid()` from `src/ulid-generator.ts`: line 18 calls the
library `ulid()`, which reads the wall clock itself (`nowLib`); line 19 then
reads the wall clock a second time (`now`) for the `timestamp` field. -/
def generateStandardUlid (rng : Nat → Nat) (nowLib now : Int) :
    Except UlidError GenerationResult :=
  match ulidLib rng nowLib with
  | .error e => .error e
  | .ok generated =>
    .ok { ulid := generated, timestamp := now, randomness := generated.drop 10 }

/-- `generateSeededUlid(options)` from `src/ulid-generator.ts`:
`seedTime = options.seedTime || Date.now()` (a single clock read, shared by
the library call and the `timestamp` field), then `ulid(seedTime)`. -/
def generateSeededUlid (rng : Nat → Nat) (seedTime : Option Int) (now : Int) :
    Except UlidError GenerationResult :=
  let t := effTime seedTime now
  match ulidLib rng t with
  | .error e => .error e
  | .ok generated =>
    .ok { ulid := generated, timestamp := t, randomness := generated.drop 10 }

/-- States of `CloudflareMonotonicUlidGenerator` reachable by its public
operations: either still fresh (`lastTime = 0`, `lastRandom = ''`) or holding
a well-formed 16-character randomness field. -/
def GoodState (st : MonotonicState) : Prop :=
  (st.lastTime = 0 ∧ st.lastRandom = []) ∨
  (st.lastRandom.length = RANDOM_LEN ∧ ∀ c ∈ st.lastRandom, c ∈ ENCODING)

/-- The numeric value a character contributes while decoding
(its position in the alphabet; `0` is never used for characters
outside the alphabet, the decoders error out instead). -/
def digitVal (c : Char) : Nat := (indexOfChar c).getD 0

/-- The big-endian base-32 value of a digit string. -/
def listVal : List Char → Nat
  | [] => 0
  | c :: rest => digitVal c * 32 ^ rest.length + listVal rest

/-- The base-32 value of a digit string given least-significant first. -/
def revVal : List Char → Nat
  | [] => 0
  | c :: rest => digitVal c + 32 * revVal rest

/-- The result emitted by the first call of a freshly seeded generator. -/
def firstResult (s : Int) (rng : Nat → Nat) : GenerationResult :=
  { ulid := encodeTime s.toNat 10 ++ encodeRandom rng RANDOM_LEN,
    timestamp := s, randomness := encodeRandom rng RANDOM_LEN }

/-- The generator state right after the first call of a freshly seeded
generator. -/
def seededState (s : Int) (rng : Nat → Nat) : MonotonicState :=
  { seedTime := some s, lastTime := s, lastRandom := encodeRandom rng RANDOM_LEN }

/-- Concrete two-call run used to witness C1. -/
def C1runResults : List GenerationResult :=
  [{ ulid := "00000000010000000000000000".data, timestamp := 1,
     randomness := "0000000000000000".data },
   { ulid := "00000000010000000000000001".data, timestamp := 1,
     randomness := "0000000000000001".data }]

/-- Concrete result used to witness C8 and C9. -/
def sampleResult : GenerationResult :=
  { ulid := "00000000050000000000000000".data, timestamp := 5,
    randomness := "0000000000000000".data }

theorem charIndex_lt_length {c : Char} :
    ∀ {l : List Char} {i : Nat}, charIndex c l = some i → i < l.length := by
  intro l
  induction l with
  | nil => intro i h; simp [charIndex] at h
  | cons d rest ih =>
    intro i h
    by_cases hd : d = c
    · simp [charIndex, hd] at h
      simp only [List.length_cons]
      omega
    · simp only [charIndex, hd, if_false, Option.map_eq_some'] at h
      obtain ⟨j, hj, rfl⟩ := h
      have := ih hj
      simp only [List.length_cons]
      omega

theorem charIndex_getD {c : Char} (d : Char) :
    ∀ {l : List Char} {i : Nat}, charIndex c l = some i → l.getD i d = c := by
  intro l
  induction l with
  | nil => intro i h; simp [charIndex] at h
  | cons x rest ih =>
    intro i h
    by_cases hx : x = c
    · simp [charIndex, hx] at h
      subst h
      simpa using hx
    · simp only [charIndex, hx, if_false, Option.map_eq_some'] at h
      obtain ⟨j, hj, rfl⟩ := h
      simpa using ih hj

theorem charIndex_isSome_of_mem {c : Char} :
    ∀ {l : List Char}, c ∈ l → (charIndex c l).isSome = true := by
  intro l
  induction l with
  | nil => intro h; simp at h
  | cons x rest ih =>
    intro h
    by_cases hx : x = c
    · simp [charIndex, hx]
    · have : c ∈ rest := by
        rcases List.mem_cons.mp h with h1 | h1
        · exact absurd h1.symm hx
        · exact h1
      have := ih this
      simp only [charIndex, hx, if_false]
      cases hj : charIndex c rest
      · rw [hj] at this; simp at this
      · simp

theorem mem_of_charIndex {c : Char} :
    ∀ {l : List Char} {i : Nat}, charIndex c l = some i → c ∈ l := by
  intro l
  induction l with
  | nil => intro i h; simp [charIndex] at h
  | cons x rest ih =>
    intro i h
    by_cases hx : x = c
    · simp [hx]
    · simp only [charIndex, hx, if_false, Option.map_eq_some'] at h
      obtain ⟨j, hj, _⟩ := h
      exact List.mem_cons_of_mem _ (ih hj)

theorem indexOfChar_eq_some {c : Char} (h : c ∈ ENCODING) :
    indexOfChar c = some (digitVal c) := by
  have h2 := charIndex_isSome_of_mem h
  unfold indexOfChar digitVal indexOfChar
  cases hx : charIndex c ENCODING
  · rw [hx] at h2; simp at h2
  · rfl

theorem indexOfChar_eq_none {c : Char} (h : c ∉ ENCODING) : indexOfChar c = none := by
  cases hx : indexOfChar c
  · rfl
  · exact absurd (mem_of_charIndex hx) h

theorem digitVal_lt {c : Char} (h : c ∈ ENCODING) : digitVal c < 32 := by
  have h1 := indexOfChar_eq_some h
  have h2 := charIndex_lt_length h1
  simpa [ENCODING] using h2

theorem encChar_digitVal {c : Char} (h : c ∈ ENCODING) : encChar (digitVal c) = c :=
  charIndex_getD ' ' (indexOfChar_eq_some h)

theorem indexOfChar_encChar : ∀ i : Fin 32, indexOfChar (encChar i.val) = some i.val := by
  decide

theorem encChar_mem : ∀ i : Fin 32, encChar i.val ∈ ENCODING := by decide

theorem digitVal_encChar : ∀ i : Fin 32, digitVal (encChar i.val) = i.val := by decide

theorem encChar_strict_mono : ∀ i j : Fin 32, i < j → encChar i.val < encChar j.val := by
  decide

theorem digitVal_eq_31_iff {c : Char} (h : c ∈ ENCODING) : digitVal c = 31 ↔ c = 'Z' := by
  constructor
  · intro h31
    have := encChar_digitVal h
    rw [h31] at this
    exact this.symm
  · intro hz
    subst hz
    decide

theorem digitVal_inj {c d : Char} (hc : c ∈ ENCODING) (hd : d ∈ ENCODING)
    (h : digitVal c = digitVal d) : c = d := by
  have h1 := encChar_digitVal hc
  have h2 := encChar_digitVal hd
  rw [← h1, ← h2, h]

theorem digitVal_lt_char_lt {c d : Char} (hc : c ∈ ENCODING) (hd : d ∈ ENCODING)
    (h : digitVal c < digitVal d) : c < d := by
  have h1 := encChar_digitVal hc
  have h2 := encChar_digitVal hd
  have := encChar_strict_mono ⟨digitVal c, digitVal_lt hc⟩ ⟨digitVal d, digitVal_lt hd⟩ h
  rwa [h1, h2] at this

theorem ENCODING_LEN_eq : ENCODING_LEN = 32 := rfl

theorem listVal_lt {l : List Char} (h : ∀ c ∈ l, c ∈ ENCODING) :
    listVal l < 32 ^ l.length := by
  induction l with
  | nil => simp [listVal]
  | cons c rest ih =>
    have hc : digitVal c ≤ 31 := by
      have := digitVal_lt (h c (List.mem_cons_self c rest))
      omega
    have hrest := ih fun d hd => h d (List.mem_cons_of_mem c hd)
    simp only [listVal, List.length_cons]
    calc digitVal c * 32 ^ rest.length + listVal rest
        < digitVal c * 32 ^ rest.length + 32 ^ rest.length := by omega
      _ = (digitVal c + 1) * 32 ^ rest.length := by ring
      _ ≤ 32 * 32 ^ rest.length := Nat.mul_le_mul_right _ (by omega)
      _ = 32 ^ (rest.length + 1) := by ring

theorem decodeTimeGo_ok {l : List Char} (h : ∀ c ∈ l, c ∈ ENCODING) :
    ∀ acc, decodeTimeGo l acc = .ok (acc * 32 ^ l.length + listVal l) := by
  induction l with
  | nil => intro acc; simp [decodeTimeGo, listVal]
  | cons c rest ih =>
    intro acc
    have hc := indexOfChar_eq_some (h c (List.mem_cons_self c rest))
    have hrest := ih fun d hd => h d (List.mem_cons_of_mem c hd)
    simp only [decodeTimeGo, hc, hrest, ENCODING_LEN_eq, listVal, List.length_cons]
    congr 1
    ring

theorem decodeTime_ok_of_valid {l : List Char} (h : ∀ c ∈ l, c ∈ ENCODING) :
    decodeTime l = .ok (listVal l) := by
  have := decodeTimeGo_ok h 0
  simpa [decodeTime] using this

theorem decodeTimeGo_error {l : List Char} (h : ¬ ∀ c ∈ l, c ∈ ENCODING) :
    ∀ acc, decodeTimeGo l acc = .error .invalidCharacter := by
  induction l with
  | nil => exact absurd (by simp) h
  | cons c rest ih =>
    intro acc
    by_cases hc : c ∈ ENCODING
    · have hrest : ¬ ∀ d ∈ rest, d ∈ ENCODING := by
        intro hall
        exact h fun d hd => by
          rcases List.mem_cons.mp hd with h1 | h1
          · exact h1 ▸ hc
          · exact hall d h1
      simp only [decodeTimeGo, indexOfChar_eq_some hc]
      exact ih hrest _
    · simp only [decodeTimeGo, indexOfChar_eq_none hc]

theorem decodeTime_error {l : List Char} (h : ¬ ∀ c ∈ l, c ∈ ENCODING) :
    decodeTime l = .error .invalidCharacter :=
  decodeTimeGo_error h 0

theorem encodeTime_length (t len : Nat) : (encodeTime t len).length = len := by
  induction len generalizing t with
  | zero => simp [encodeTime]
  | succ n ih => simp [encodeTime, ih]

theorem encodeTime_valid (t len : Nat) : ∀ c ∈ encodeTime t len, c ∈ ENCODING := by
  induction len generalizing t with
  | zero => simp [encodeTime]
  | succ n ih =>
    intro c hc
    simp only [encodeTime, List.mem_append, List.mem_singleton] at hc
    rcases hc with hc | hc
    · exact ih _ c hc
    · subst hc
      exact encChar_mem ⟨t % ENCODING_LEN, Nat.mod_lt _ (by decide)⟩

theorem mod_base_decomp (t M : Nat) (hM : 0 < M) :
    t % (32 * M) = (t / 32 % M) * 32 + t % 32 := by
  have key : t = (32 * M) * (t / 32 / M) + ((t / 32 % M) * 32 + t % 32) := by
    calc t = 32 * (t / 32) + t % 32 := (Nat.div_add_mod t 32).symm
      _ = 32 * (M * (t / 32 / M) + t / 32 % M) + t % 32 := by
          conv_rhs => rw [Nat.div_add_mod]
      _ = (32 * M) * (t / 32 / M) + ((t / 32 % M) * 32 + t % 32) := by ring
  have hbound : (t / 32 % M) * 32 + t % 32 < 32 * M := by
    have hx : t / 32 % M < M := Nat.mod_lt _ hM
    have hy : t % 32 < 32 := Nat.mod_lt _ (by omega)
    calc (t / 32 % M) * 32 + t % 32 < (t / 32 % M) * 32 + 32 := by omega
      _ = (t / 32 % M + 1) * 32 := by ring
      _ ≤ M * 32 := Nat.mul_le_mul_right _ (by omega)
      _ = 32 * M := by ring
  calc t % (32 * M)
      = ((32 * M) * (t / 32 / M) + ((t / 32 % M) * 32 + t % 32)) % (32 * M) := by
        rw [← key]
    _ = ((t / 32 % M) * 32 + t % 32) % (32 * M) := by rw [Nat.mul_add_mod]
    _ = (t / 32 % M) * 32 + t % 32 := Nat.mod_eq_of_lt hbound

theorem listVal_append_singleton (l : List Char) (c : Char) :
    listVal (l ++ [c]) = listVal l * 32 + digitVal c := by
  induction l with
  | nil => simp [listVal]
  | cons x rest ih =>
    have hlen : (rest ++ [c]).length = rest.length + 1 := by simp
    simp only [List.cons_append, listVal, List.append_eq, ih, hlen]
    ring

theorem listVal_encodeTime (t len : Nat) : listVal (encodeTime t len) = t % 32 ^ len := by
  induction len generalizing t with
  | zero => simp [encodeTime, listVal, Nat.mod_one]
  | succ n ih =>
    have hd : digitVal (encChar (t % 32)) = t % 32 :=
      digitVal_encChar ⟨t % 32, Nat.mod_lt _ (by omega)⟩
    simp only [encodeTime, ENCODING_LEN_eq, listVal_append_singleton, ih, hd]
    rw [pow_succ, mul_comm (32 ^ n) 32, mod_base_decomp t (32 ^ n) (by positivity)]

theorem decodeTime_encodeTime {t : Nat} (len : Nat) (h : t < 32 ^ len) :
    decodeTime (encodeTime t len) = .ok t := by
  rw [decodeTime_ok_of_valid (encodeTime_valid t len), listVal_encodeTime,
    Nat.mod_eq_of_lt h]

theorem encodeRandom_length (rng : Nat → Nat) (len : Nat) :
    (encodeRandom rng len).length = len := by
  simp [encodeRandom]

theorem encodeRandom_valid (rng : Nat → Nat) (len : Nat) :
    ∀ c ∈ encodeRandom rng len, c ∈ ENCODING := by
  intro c hc
  simp only [encodeRandom, List.mem_map, List.mem_range] at hc
  obtain ⟨i, _, rfl⟩ := hc
  exact encChar_mem ⟨rng i % ENCODING_LEN, Nat.mod_lt _ (by decide)⟩

theorem revVal_append_singleton (l : List Char) (c : Char) :
    revVal (l ++ [c]) = revVal l + digitVal c * 32 ^ l.length := by
  induction l with
  | nil => simp [revVal]
  | cons x rest ih =>
    simp only [List.cons_append, revVal, List.append_eq, ih, List.length_cons]
    ring

theorem listVal_eq_revVal_reverse (l : List Char) : listVal l = revVal l.reverse := by
  induction l with
  | nil => rfl
  | cons c rest ih =>
    simp only [List.reverse_cons, revVal_append_singleton, listVal, ih,
      List.length_reverse]
    ring

theorem incrementRev_allMax {l : List Char} (h : ∀ c ∈ l, c = 'Z') :
    incrementRev l = .ok none := by
  induction l with
  | nil => rfl
  | cons c rest ih =>
    have hc := h c (List.mem_cons_self c rest)
    subst hc
    have hrest := ih fun d hd => h d (List.mem_cons_of_mem _ hd)
    simp only [incrementRev, show indexOfChar 'Z' = some 31 by decide, ENCODING_LEN_eq]
    rw [if_neg (by omega), hrest]

theorem incrementRev_spec {l : List Char} (hval : ∀ c ∈ l, c ∈ ENCODING)
    (hnm : ¬ ∀ c ∈ l, c = 'Z') :
    ∃ t, incrementRev l = .ok (some t) ∧ t.length = l.length ∧
      (∀ c ∈ t, c ∈ ENCODING) ∧ revVal t = revVal l + 1 := by
  induction l with
  | nil => exact absurd (by simp) hnm
  | cons c rest ih =>
    have hc : c ∈ ENCODING := hval c (List.mem_cons_self c rest)
    have hrestval : ∀ d ∈ rest, d ∈ ENCODING := fun d hd =>
      hval d (List.mem_cons_of_mem _ hd)
    have hio := indexOfChar_eq_some hc
    by_cases hlt : digitVal c < 31
    · refine ⟨encChar (digitVal c + 1) :: rest, ?_, by simp, ?_, ?_⟩
      · simp only [incrementRev, hio, ENCODING_LEN_eq]
        rw [if_pos (by omega)]
      · intro d hd
        rcases List.mem_cons.mp hd with h1 | h1
        · exact h1 ▸ encChar_mem ⟨digitVal c + 1, by omega⟩
        · exact hrestval d h1
      · have hd1 : digitVal (encChar (digitVal c + 1)) = digitVal c + 1 :=
          digitVal_encChar ⟨digitVal c + 1, by omega⟩
        simp only [revVal, hd1]
        ring
    · have h31 : digitVal c = 31 := by
        have := digitVal_lt hc
        omega
      have hcz : c = 'Z' := (digitVal_eq_31_iff hc).mp h31
      have hrestnm : ¬ ∀ d ∈ rest, d = 'Z' := by
        intro hall
        exact hnm fun d hd => by
          rcases List.mem_cons.mp hd with h1 | h1
          · exact h1 ▸ hcz
          · exact hall d h1
      obtain ⟨t', ht'eq, ht'len, ht'val, ht'rev⟩ := ih hrestval hrestnm
      refine ⟨encChar 0 :: t', ?_, by simp [ht'len], ?_, ?_⟩
      · simp only [incrementRev, hio, ENCODING_LEN_eq]
        rw [if_neg (by omega), ht'eq]
      · intro d hd
        rcases List.mem_cons.mp hd with h1 | h1
        · exact h1 ▸ encChar_mem ⟨0, by omega⟩
        · exact ht'val d h1
      · have hd0 : digitVal (encChar 0) = 0 := digitVal_encChar ⟨0, by omega⟩
        simp only [revVal, hd0, ht'rev, h31]
        ring

theorem incrementBase32_spec (rng : Nat → Nat) {l : List Char}
    (hval : ∀ c ∈ l, c ∈ ENCODING) (hnm : ¬ ∀ c ∈ l, c = 'Z') :
    ∃ t, incrementBase32 rng l = .ok t ∧ t.length = l.length ∧
      (∀ c ∈ t, c ∈ ENCODING) ∧ listVal t = listVal l + 1 := by
  have hval' : ∀ c ∈ l.reverse, c ∈ ENCODING := fun c hc =>
    hval c (List.mem_reverse.mp hc)
  have hnm' : ¬ ∀ c ∈ l.reverse, c = 'Z' := by
    intro hall
    exact hnm fun c hc => hall c (List.mem_reverse.mpr hc)
  obtain ⟨t', h1, h2, h3, h4⟩ := incrementRev_spec hval' hnm'
  refine ⟨t'.reverse, ?_, ?_, ?_, ?_⟩
  · simp only [incrementBase32, h1]
  · simpa using h2
  · intro c hc
    exact h3 c (List.mem_reverse.mp hc)
  · rw [listVal_eq_revVal_reverse t'.reverse, List.reverse_reverse, h4,
      ← listVal_eq_revVal_reverse]

theorem incrementBase32_allMax (rng : Nat → Nat) {l : List Char}
    (h : ∀ c ∈ l, c = 'Z') :
    incrementBase32 rng l = .ok (encodeRandom rng l.length) := by
  have h' : ∀ c ∈ l.reverse, c = 'Z' := fun c hc => h c (List.mem_reverse.mp hc)
  simp only [incrementBase32, incrementRev_allMax h']

theorem lex_append_left {r : Char → Char → Prop} (p : List Char) {s t : List Char}
    (h : List.Lex r s t) : List.Lex r (p ++ s) (p ++ t) := by
  induction p with
  | nil => simpa using h
  | cons x p' ih => exact List.Lex.cons ih

theorem listVal_lt_lex {s t : List Char} (hlen : s.length = t.length)
    (hs : ∀ c ∈ s, c ∈ ENCODING) (ht : ∀ c ∈ t, c ∈ ENCODING)
    (hv : listVal s < listVal t) : List.Lex (· < ·) s t := by
  induction s generalizing t with
  | nil =>
    cases t with
    | nil => simp [listVal] at hv
    | cons b t' => simp at hlen
  | cons a s' ih =>
    cases t with
    | nil => simp at hlen
    | cons b t' =>
      have hlen' : s'.length = t'.length := by simpa using hlen
      have ha : a ∈ ENCODING := hs a (List.mem_cons_self a s')
      have hb : b ∈ ENCODING := ht b (List.mem_cons_self b t')
      have hs' : ∀ c ∈ s', c ∈ ENCODING := fun c hc => hs c (List.mem_cons_of_mem _ hc)
      have ht' : ∀ c ∈ t', c ∈ ENCODING := fun c hc => ht c (List.mem_cons_of_mem _ hc)
      rcases lt_trichotomy (digitVal a) (digitVal b) with h | h | h
      · exact List.Lex.rel (digitVal_lt_char_lt ha hb h)
      · have hab : a = b := digitVal_inj ha hb h
        subst hab
        apply List.Lex.cons
        apply ih hlen' hs' ht'
        simp only [listVal, hlen', h] at hv
        omega
      · exfalso
        have hP : listVal t' < 32 ^ t'.length := listVal_lt ht'
        have h1 : (digitVal b + 1) * 32 ^ t'.length ≤ digitVal a * 32 ^ t'.length :=
          Nat.mul_le_mul_right _ (by omega)
        have h2 : (digitVal b + 1) * 32 ^ t'.length
            = digitVal b * 32 ^ t'.length + 32 ^ t'.length := by ring
        simp only [listVal, hlen'] at hv
        omega

theorem effTime_some {t : Int} (h : t ≠ 0) (now : Int) : effTime (some t) now = t := by
  simp [effTime, h]

theorem effTime_none (now : Int) : effTime none now = now := rfl

theorem effTime_zero (now : Int) : effTime (some 0) now = now := by
  simp [effTime]

theorem TIME_MAX_eq : TIME_MAX = 281474976710655 := by decide

/-- A same-timestamp call on a validly seeded, non-saturated state takes the
increment branch and bumps the randomness counter by one. -/
theorem generateMonotonicUlid_increment (st : MonotonicState) (rng : Nat → Nat)
    (now s : Int) (hseed : st.seedTime = some s) (hs0 : s ≠ 0) (hpos : 0 ≤ s)
    (hmax : s ≤ TIME_MAX) (hlt : st.lastTime = s)
    (hval : ∀ c ∈ st.lastRandom, c ∈ ENCODING)
    (hnm : ¬ ∀ c ∈ st.lastRandom, c = 'Z') :
    ∃ t, generateMonotonicUlid st rng now =
        .ok ({ ulid := encodeTime s.toNat 10 ++ t, timestamp := s, randomness := t },
             { st with lastRandom := t }) ∧
      t.length = st.lastRandom.length ∧ (∀ c ∈ t, c ∈ ENCODING) ∧
      listVal t = listVal st.lastRandom + 1 := by
  obtain ⟨t, h1, h2, h3, h4⟩ := incrementBase32_spec rng hval hnm
  refine ⟨t, ?_, h2, h3, h4⟩
  have hcond : ¬ (s < 0 ∨ TIME_MAX < s) := by
    rw [TIME_MAX_eq] at hmax ⊢
    omega
  simp only [generateMonotonicUlid, hseed, effTime_some hs0, hcond, if_false, hlt,
    if_pos rfl, h1]
  simp

/-- Invariant proof for a run of same-seed calls on an already-seeded state:
as long as no produced randomness that is followed by another call is the
all-`'Z'` counter, every call takes the increment branch, all results carry
the seed timestamp and a valid 16-character randomness, and the randomness
values strictly increase along the run (starting from the stored one). -/
theorem runMonotonic_spec (now s : Int) (hs0 : s ≠ 0) (hpos : 0 ≤ s)
    (hmax : s ≤ TIME_MAX) :
    ∀ (rngs : List (Nat → Nat)) (st : MonotonicState) (rs : List GenerationResult)
      (st' : MonotonicState),
      st.seedTime = some s → st.lastTime = s → st.lastRandom.length = RANDOM_LEN →
      (∀ c ∈ st.lastRandom, c ∈ ENCODING) →
      runMonotonic rngs st now = .ok (rs, st') →
      List.Chain' (fun a _ => a ≠ List.replicate 16 'Z')
        (st.lastRandom :: rs.map GenerationResult.randomness) →
      (∀ r ∈ rs, r.ulid = encodeTime s.toNat 10 ++ r.randomness ∧
        r.randomness.length = RANDOM_LEN ∧ (∀ c ∈ r.randomness, c ∈ ENCODING) ∧
        r.timestamp = s) ∧
      List.Chain' (fun a b => listVal a < listVal b)
        (st.lastRandom :: rs.map GenerationResult.randomness) := by
  intro rngs
  induction rngs with
  | nil =>
    intro st rs st' hseed hlt hlen hval hrun hch
    simp only [runMonotonic, Except.ok.injEq, Prod.mk.injEq] at hrun
    obtain ⟨rfl, rfl⟩ := hrun
    simp
  | cons rng rest ih =>
    intro st rs st' hseed hlt hlen hval hrun hch
    simp only [runMonotonic] at hrun
    cases hg : generateMonotonicUlid st rng now with
    | error e => rw [hg] at hrun; exact absurd hrun (by simp)
    | ok p =>
      obtain ⟨r, st1⟩ := p
      rw [hg] at hrun
      dsimp only at hrun
      cases hr : runMonotonic rest st1 now with
      | error e => rw [hr] at hrun; exact absurd hrun (by simp)
      | ok q =>
        obtain ⟨rs2, st2⟩ := q
        rw [hr] at hrun
        dsimp only at hrun
        simp only [Except.ok.injEq, Prod.mk.injEq] at hrun
        obtain ⟨hrs, rfl⟩ := hrun
        subst hrs
        simp only [List.map_cons, List.chain'_cons] at hch
        obtain ⟨hnz, hch'⟩ := hch
        have hnm : ¬ ∀ c ∈ st.lastRandom, c = 'Z' := by
          intro hall
          exact hnz (List.eq_replicate_iff.mpr ⟨hlen, hall⟩)
        obtain ⟨t, hgen, htlen, htval, htv⟩ :=
          generateMonotonicUlid_increment st rng now s hseed hs0 hpos hmax hlt hval hnm
        rw [hgen] at hg
        simp only [Except.ok.injEq, Prod.mk.injEq] at hg
        obtain ⟨hrq, hst1⟩ := hg
        have hrrand : r.randomness = t := by rw [← hrq]
        have hstep := ih st1 rs2 st2 (by rw [← hst1, hseed]) (by rw [← hst1]; exact hlt)
          (by rw [← hst1]; simpa [htlen] using hlen)
          (by rw [← hst1]; simpa using htval) hr
          (by rw [← hst1]; simpa [hrrand] using hch')
        refine ⟨?_, ?_⟩
        · intro r' hr'
          rcases List.mem_cons.mp hr' with h1 | h1
          · subst h1
            refine ⟨by rw [← hrq], by rw [hrrand, htlen]; exact hlen,
              by rw [hrrand]; exact htval, by rw [← hrq]⟩
          · exact hstep.1 r' h1
        · rw [List.map_cons, List.chain'_cons]
          constructor
          · rw [hrrand, htv]
            omega
          · have := hstep.2
            rw [← hst1] at this
            simpa [hrrand] using this

/-- Strictly increasing randomness values yield lexicographically increasing
ULIDs when all results share the timestamp prefix. -/
theorem chain_lex_of_chain_val (p : List Char) (rs : List GenerationResult)
    (hmem : ∀ r ∈ rs, r.ulid = p ++ r.randomness ∧ r.randomness.length = RANDOM_LEN ∧
      ∀ c ∈ r.randomness, c ∈ ENCODING)
    (hch : List.Chain' (fun a b => listVal a.randomness < listVal b.randomness) rs) :
    List.Chain' (fun a b => List.Lex (· < ·) a.ulid b.ulid) rs := by
  induction rs with
  | nil => simp
  | cons r1 rs' ih =>
    cases rs' with
    | nil => simp
    | cons r2 rs'' =>
      rw [List.chain'_cons] at hch ⊢
      obtain ⟨hv, hch'⟩ := hch
      have h1 := hmem r1 (List.mem_cons_self _ _)
      have h2 := hmem r2 (List.mem_cons_of_mem _ (List.mem_cons_self _ _))
      refine ⟨?_, ih (fun r hr => hmem r (List.mem_cons_of_mem _ hr)) hch'⟩
      rw [h1.1, h2.1]
      exact lex_append_left p
        (listVal_lt_lex (by rw [h1.2.1, h2.2.1]) h1.2.2 h2.2.2 hv)

/-- A call whose effective timestamp differs from `lastTime` takes the
reseed branch. -/
theorem generateMonotonicUlid_reseed (st : MonotonicState) (rng : Nat → Nat)
    (now : Int) (hne : ¬ effTime st.seedTime now = st.lastTime)
    (h0 : 0 ≤ effTime st.seedTime now) (hm : effTime st.seedTime now ≤ TIME_MAX) :
    generateMonotonicUlid st rng now =
      .ok ({ ulid := encodeTime (effTime st.seedTime now).toNat 10 ++
              encodeRandom rng RANDOM_LEN,
             timestamp := effTime st.seedTime now,
             randomness := encodeRandom rng RANDOM_LEN },
           { st with lastTime := effTime st.seedTime now,
                     lastRandom := encodeRandom rng RANDOM_LEN }) := by
  have hcond : ¬ (effTime st.seedTime now < 0 ∨ TIME_MAX < effTime st.seedTime now) := by
    push_neg
    exact ⟨h0, hm⟩
  simp only [generateMonotonicUlid, hcond, if_false, if_neg hne]

/-- C1: for a fixed Monotonic Sequencer instance (a fresh
`CloudflareMonotonicUlidGenerator` constructed with seed time `s`), N
successive `generateMonotonicUlid` calls made with the same seed time —
no overflow of the 16-character randomness counter occurring during the
run — produce ULID strings that are strictly increasing lexicographically,
and all N results share the identical 10-character timePart
`encodeTime s 10`. -/
theorem C1_monotonic_same_seed_increasing (s : Int) (hs : 0 < s) (hmax : s ≤ TIME_MAX)
    (rngs : List (Nat → Nat)) (now : Int) (rs : List GenerationResult)
    (st' : MonotonicState)
    (hrun : runMonotonic rngs (MonotonicState.init (some s)) now = .ok (rs, st'))
    (hnof : List.Chain' (fun a _ => a.randomness ≠ List.replicate 16 'Z') rs) :
    List.Pairwise (List.Lex (· < ·)) (rs.map GenerationResult.ulid) ∧
    ∀ r ∈ rs, r.ulid.take 10 = encodeTime s.toNat 10 ∧
      (r.ulid.take 10).length = 10 := by
  cases rngs with
  | nil =>
    simp only [runMonotonic, Except.ok.injEq, Prod.mk.injEq] at hrun
    obtain ⟨rfl, rfl⟩ := hrun
    simp
  | cons rng rest =>
    have hs0 : s ≠ 0 := by omega
    have heff : effTime (MonotonicState.init (some s)).seedTime now = s :=
      effTime_some hs0 now
    have hne : ¬ effTime (MonotonicState.init (some s)).seedTime now
        = (MonotonicState.init (some s)).lastTime := by
      rw [heff]
      simpa [MonotonicState.init] using hs0
    have hg0 := generateMonotonicUlid_reseed (MonotonicState.init (some s)) rng now hne
      (by rw [heff]; omega) (by rw [heff]; exact hmax)
    rw [heff] at hg0
    have hg : generateMonotonicUlid (MonotonicState.init (some s)) rng now =
        .ok (firstResult s rng, seededState s rng) := hg0
    simp only [runMonotonic] at hrun
    rw [hg] at hrun
    dsimp only at hrun
    cases hr : runMonotonic rest (seededState s rng) now with
    | error e => rw [hr] at hrun; exact absurd hrun (by simp)
    | ok q =>
      obtain ⟨rs2, st2⟩ := q
      rw [hr] at hrun
      dsimp only at hrun
      simp only [Except.ok.injEq, Prod.mk.injEq] at hrun
      obtain ⟨hrs, rfl⟩ := hrun
      subst hrs
      have hch : List.Chain' (fun a _ => a ≠ List.replicate 16 'Z')
          ((seededState s rng).lastRandom :: rs2.map GenerationResult.randomness) := by
        have := (List.chain'_map (R := fun a _ => a ≠ List.replicate 16 'Z')
          GenerationResult.randomness).mpr hnof
        simpa [seededState, firstResult] using this
      obtain ⟨hmem2, hchain⟩ := runMonotonic_spec now s hs0 (by omega) hmax rest
        (seededState s rng) rs2 st2 rfl rfl (encodeRandom_length rng RANDOM_LEN)
        (encodeRandom_valid rng RANDOM_LEN) hr hch
      have hmem : ∀ r ∈ firstResult s rng :: rs2,
          r.ulid = encodeTime s.toNat 10 ++ r.randomness ∧
            r.randomness.length = RANDOM_LEN ∧ ∀ c ∈ r.randomness, c ∈ ENCODING := by
        intro r hr'
        rcases List.mem_cons.mp hr' with h1 | h1
        · subst h1
          exact ⟨rfl, encodeRandom_length _ _, encodeRandom_valid _ _⟩
        · obtain ⟨ha, hb, hc, _⟩ := hmem2 r h1
          exact ⟨ha, hb, hc⟩
      constructor
      · have hmapped : List.Chain' (fun a b => listVal a < listVal b)
            ((firstResult s rng :: rs2).map GenerationResult.randomness) := by
          simpa [seededState, firstResult] using hchain
        have hchain' := (List.chain'_map (R := fun a b => listVal a < listVal b)
          GenerationResult.randomness).mp hmapped
        have hlex := chain_lex_of_chain_val (encodeTime s.toNat 10) _ hmem hchain'
        have hlexmap := (List.chain'_map (R := List.Lex (· < ·))
          GenerationResult.ulid).mpr hlex
        exact List.chain'_iff_pairwise.mp hlexmap
      · intro r hr'
        obtain ⟨ha, _, _⟩ := hmem r hr'
        refine ⟨?_, ?_⟩
        · rw [ha, List.take_left' (encodeTime_length s.toNat 10)]
        · rw [ha, List.take_left' (encodeTime_length s.toNat 10),
            encodeTime_length s.toNat 10]

/-- Witness for C1: a concrete two-call run with seed time 1. -/
theorem C1_witness :
    runMonotonic [fun _ => 0, fun _ => 0] (MonotonicState.init (some 1)) 5 =
      .ok (C1runResults,
        { seedTime := some 1, lastTime := 1,
          lastRandom := "0000000000000001".data }) ∧
    List.Chain' (fun a _ => a.randomness ≠ List.replicate 16 'Z') C1runResults ∧
    (List.Pairwise (List.Lex (· < ·)) (C1runResults.map GenerationResult.ulid) ∧
     ∀ r ∈ C1runResults, r.ulid.take 10 = encodeTime (1 : Int).toNat 10 ∧
       (r.ulid.take 10).length = 10) :=
  ⟨rfl, List.chain'_cons.mpr ⟨by decide, List.chain'_singleton _⟩,
    C1_monotonic_same_seed_increasing 1 (by decide) (by decide)
      [fun _ => 0, fun _ => 0] 5 C1runResults _ rfl
      (List.chain'_cons.mpr ⟨by decide, List.chain'_singleton _⟩)⟩

theorem effTime_ne_zero (seedTime : Option Int) (now : Int) (hnow : now ≠ 0) :
    effTime seedTime now ≠ 0 := by
  cases seedTime with
  | none => exact hnow
  | some t =>
    by_cases ht : t = 0
    · simp only [effTime, ht, if_pos rfl]
      exact hnow
    · simp only [effTime, if_neg ht]
      exact ht

/-- On a string of alphabet characters, `incrementBase32` never errors and
preserves the width and the alphabet membership. -/
theorem incrementBase32_total (rng : Nat → Nat) {l : List Char}
    (hval : ∀ c ∈ l, c ∈ ENCODING) :
    ∃ t, incrementBase32 rng l = .ok t ∧ t.length = l.length ∧
      ∀ c ∈ t, c ∈ ENCODING := by
  by_cases hnm : ∀ c ∈ l, c = 'Z'
  · exact ⟨encodeRandom rng l.length, incrementBase32_allMax rng hnm,
      encodeRandom_length _ _, encodeRandom_valid _ _⟩
  · obtain ⟨t, h1, h2, h3, _⟩ := incrementBase32_spec rng hval hnm
    exact ⟨t, h1, h2, h3⟩

theorem decodeTime_encodeTime_int {ts : Int} (h0 : 0 ≤ ts) (hm : ts ≤ TIME_MAX) :
    decodeTime (encodeTime ts.toNat 10) = .ok ts.toNat := by
  apply decodeTime_encodeTime
  have h1 : ts ≤ 281474976710655 := by rwa [TIME_MAX_eq] at hm
  have h32 : (32 : Nat) ^ 10 = 1125899906842624 := by norm_num
  omega

/-- The two field equations shared by all generation results whose ulid is
`encodeTime ts 10 ++ rand`. -/
theorem fields_ok {ts : Int} (rand : List Char) (h0 : 0 ≤ ts) (hm : ts ≤ TIME_MAX) :
    decodeTime ((encodeTime ts.toNat 10 ++ rand).take 10) = .ok ts.toNat ∧
    (encodeTime ts.toNat 10 ++ rand).drop 10 = rand := by
  constructor
  · rw [List.take_left' (encodeTime_length ts.toNat 10)]
    exact decodeTime_encodeTime_int h0 hm
  · exact List.drop_left' (encodeTime_length ts.toNat 10)

theorem ulidLib_ok (rng : Nat → Nat) (t : Int) (g : List Char)
    (h : ulidLib rng t = .ok g) :
    g = encodeTime t.toNat 10 ++ encodeRandom rng RANDOM_LEN ∧ 0 ≤ t ∧ t ≤ TIME_MAX := by
  rcases Decidable.em (t < 0 ∨ TIME_MAX < t) with hc | hc
  · simp only [ulidLib, if_pos hc] at h
    exact absurd h (by simp)
  · simp only [ulidLib, if_neg hc, Except.ok.injEq] at h
    push_neg at hc
    exact ⟨h.symm, hc.1, hc.2⟩

theorem generateCloudflareUlid_ok_decomp (rng : Nat → Nat) (seedTime : Option Int)
    (now : Int) (r : GenerationResult)
    (hgen : generateCloudflareUlid rng seedTime now = .ok r) :
    r.ulid = encodeTime r.timestamp.toNat 10 ++ r.randomness ∧
    r.randomness = encodeRandom rng RANDOM_LEN ∧
    0 ≤ r.timestamp ∧ r.timestamp ≤ TIME_MAX := by
  rcases Decidable.em (effTime seedTime now < 0 ∨ TIME_MAX < effTime seedTime now)
    with hcond | hcond
  · simp only [generateCloudflareUlid, if_pos hcond] at hgen
    exact absurd hgen (by simp)
  · have hcond' := hcond
    push_neg at hcond'
    simp only [generateCloudflareUlid, if_neg hcond, Except.ok.injEq] at hgen
    subst hgen
    exact ⟨rfl, rfl, hcond'.1, hcond'.2⟩

theorem generateMonotonicUlid_ok_decomp (st : MonotonicState) (rng : Nat → Nat)
    (now : Int) (r : GenerationResult) (st' : MonotonicState)
    (hgen : generateMonotonicUlid st rng now = .ok (r, st')) :
    r.ulid = encodeTime r.timestamp.toNat 10 ++ r.randomness ∧
    0 ≤ r.timestamp ∧ r.timestamp ≤ TIME_MAX ∧
    r.timestamp = effTime st.seedTime now ∧ st'.lastRandom = r.randomness := by
  rcases Decidable.em (effTime st.seedTime now < 0 ∨ TIME_MAX < effTime st.seedTime now)
    with hcond | hcond
  · simp only [generateMonotonicUlid, if_pos hcond] at hgen
    exact absurd hgen (by simp)
  · have hcond' := hcond
    push_neg at hcond'
    rcases Decidable.em (effTime st.seedTime now = st.lastTime) with hb | hb
    · cases hinc : incrementBase32 rng st.lastRandom with
      | error e =>
        simp only [generateMonotonicUlid, if_neg hcond, if_pos hb, hinc] at hgen
        exact absurd hgen (by simp)
      | ok t =>
        simp only [generateMonotonicUlid, if_neg hcond, if_pos hb, hinc,
          Except.ok.injEq, Prod.mk.injEq] at hgen
        obtain ⟨hr, hst⟩ := hgen
        subst hr
        subst hst
        exact ⟨rfl, hcond'.1, hcond'.2, rfl, rfl⟩
    · simp only [generateMonotonicUlid, if_neg hcond, if_neg hb,
        Except.ok.injEq, Prod.mk.injEq] at hgen
      obtain ⟨hr, hst⟩ := hgen
      subst hr
      subst hst
      exact ⟨rfl, hcond'.1, hcond'.2, rfl, rfl⟩

theorem generateMonotonicUlid_good_shape (st : MonotonicState) (rng : Nat → Nat)
    (now : Int) (r : GenerationResult) (st' : MonotonicState)
    (hnow : now ≠ 0) (hgood : GoodState st)
    (hgen : generateMonotonicUlid st rng now = .ok (r, st')) :
    r.randomness.length = RANDOM_LEN ∧ (∀ c ∈ r.randomness, c ∈ ENCODING) ∧
    GoodState st' := by
  rcases Decidable.em (effTime st.seedTime now < 0 ∨ TIME_MAX < effTime st.seedTime now)
    with hcond | hcond
  · simp only [generateMonotonicUlid, if_pos hcond] at hgen
    exact absurd hgen (by simp)
  · rcases Decidable.em (effTime st.seedTime now = st.lastTime) with hb | hb
    · rcases hgood with ⟨hl0, hlr⟩ | ⟨hlen, hval⟩
      · exact absurd (hb.trans hl0) (effTime_ne_zero st.seedTime now hnow)
      · obtain ⟨t, h1, h2, h3⟩ := incrementBase32_total rng hval
        simp only [generateMonotonicUlid, if_neg hcond, if_pos hb, h1,
          Except.ok.injEq, Prod.mk.injEq] at hgen
        obtain ⟨hr, hst⟩ := hgen
        subst hr
        subst hst
        exact ⟨h2.trans hlen, h3, Or.inr ⟨h2.trans hlen, h3⟩⟩
    · simp only [generateMonotonicUlid, if_neg hcond, if_neg hb,
        Except.ok.injEq, Prod.mk.injEq] at hgen
      obtain ⟨hr, hst⟩ := hgen
      subst hr
      subst hst
      exact ⟨encodeRandom_length _ _, encodeRandom_valid _ _,
        Or.inr ⟨encodeRandom_length _ _, encodeRandom_valid _ _⟩⟩

/-- C2: for every integer timestamp `t` in `[0, 2^48 - 1]`, decoding the
10-character string produced by `encodeTime t 10` returns exactly `t`:
`decodeTime (encodeTime t) = t`. -/
theorem C2_time_roundtrip (t : Nat) (ht : t ≤ 2 ^ 48 - 1) :
    decodeTime (encodeTime t 10) = .ok t := by
  apply decodeTime_encodeTime
  have h48 : (2 : Nat) ^ 48 - 1 = 281474976710655 := by norm_num
  have h32 : (32 : Nat) ^ 10 = 1125899906842624 := by norm_num
  omega

/-- Witness for C2 at the known-vector timestamp. -/
theorem C2_witness :
    1640995200000 ≤ 2 ^ 48 - 1 ∧
    decodeTime (encodeTime 1640995200000 10) = .ok 1640995200000 :=
  ⟨by norm_num, C2_time_roundtrip 1640995200000 (by norm_num)⟩

/-- C3: for every fixed-width string over the 32-symbol alphabet that is not
entirely maximum symbols (`'Z'`), `incrementBase32` returns a string of the
same width whose base-32 value is exactly one more than the input's value
(the rightmost-scan carry algorithm adds 1). -/
theorem C3_increment_adds_one (rng : Nat → Nat) (s : List Char)
    (hval : ∀ c ∈ s, c ∈ ENCODING) (hnm : ¬ ∀ c ∈ s, c = 'Z') :
    ∃ t v, incrementBase32 rng s = .ok t ∧ t.length = s.length ∧
      decodeTime s = .ok v ∧ decodeTime t = .ok (v + 1) := by
  obtain ⟨t, h1, h2, h3, h4⟩ := incrementBase32_spec rng hval hnm
  refine ⟨t, listVal s, h1, h2, decodeTime_ok_of_valid hval, ?_⟩
  rw [decodeTime_ok_of_valid h3, h4]

/-- Witness for C3 on the carrying input `000Z`. -/
theorem C3_witness :
    ∃ t v, incrementBase32 (fun _ => 0) "000Z".data = .ok t ∧
      t.length = "000Z".data.length ∧
      decodeTime "000Z".data = .ok v ∧ decodeTime t = .ok (v + 1) :=
  C3_increment_adds_one (fun _ => 0) "000Z".data (by decide) (by decide)

/-- C4: on an input in which every digit is the alphabet's maximum symbol
(full carry-out at width 16), `incrementBase32` does not error and does not
truncate: it returns the freshly generated random string
`encodeRandom rng 16`, of the same width 16, over the alphabet. -/
theorem C4_increment_overflow_recovery (rng : Nat → Nat) :
    incrementBase32 rng (List.replicate 16 'Z') = .ok (encodeRandom rng 16) ∧
    (encodeRandom rng 16).length = 16 ∧ ∀ c ∈ encodeRandom rng 16, c ∈ ENCODING := by
  refine ⟨?_, encodeRandom_length rng 16, encodeRandom_valid rng 16⟩
  have h := incrementBase32_allMax rng
    (l := List.replicate 16 'Z') (fun c hc => List.eq_of_mem_replicate hc)
  simpa using h

/-- C5 counterexample: a 26-character input containing the excluded letter
`'U'` in the randomness part is accepted by `parseCloudflareUlid` — the code
decodes (and so validates) only the first 10 characters, contradicting the
claim that an invalid character anywhere in the string fails the parse. -/
theorem C5_counterexample :
    "0000000000UUUUUUUUUUUUUUUU".data.length = 26 ∧
    'U' ∈ "0000000000UUUUUUUUUUUUUUUU".data ∧ 'U' ∉ ENCODING ∧
    parseCloudflareUlid "0000000000UUUUUUUUUUUUUUUU".data ≠
      Except.error UlidError.invalidCharacter := by
  refine ⟨by decide, by decide, by decide, ?_⟩
  intro h
  have hok : parseCloudflareUlid "0000000000UUUUUUUUUUUUUUUU".data =
      .ok { ulid := "0000000000UUUUUUUUUUUUUUUU".data,
            timestampPart := "0000000000".data,
            randomnessPart := "UUUUUUUUUUUUUUUU".data, timestamp := 0 } := rfl
  rw [hok] at h
  exact Except.noConfusion h

/-- C5 amended: `parse` fails with InvalidLength for every input whose length
is not 26; for a 26-character input it fails with InvalidCharacter exactly
when the first 10 characters (the timestamp part) contain a character outside
the alphabet — characters in the randomness part are not validated — and
otherwise splits at offset 10 and decodes the timestamp field. -/
theorem C5_parse_validation (s : List Char) :
    (s.length ≠ 26 → parseCloudflareUlid s = .error .invalidLength) ∧
    (s.length = 26 → ¬ (∀ c ∈ s.take 10, c ∈ ENCODING) →
      parseCloudflareUlid s = .error .invalidCharacter) ∧
    (s.length = 26 → (∀ c ∈ s.take 10, c ∈ ENCODING) →
      parseCloudflareUlid s =
        .ok { ulid := s, timestampPart := s.take 10, randomnessPart := s.drop 10,
              timestamp := listVal (s.take 10) } ∧
      decodeTime (s.take 10) = .ok (listVal (s.take 10))) := by
  refine ⟨?_, ?_, ?_⟩
  · intro h
    simp only [parseCloudflareUlid, if_pos h]
  · intro h26 hbad
    simp only [parseCloudflareUlid, h26]
    rw [if_neg (by omega), decodeTime_error hbad]
  · intro h26 hgood
    have hdec := decodeTime_ok_of_valid hgood
    refine ⟨?_, hdec⟩
    simp only [parseCloudflareUlid, h26]
    rw [if_neg (by omega), hdec]

/-- Witness for C5 on the three branches: a short input, an input with a bad
timestamp character, and a clean input. -/
theorem C5_witness :
    parseCloudflareUlid "invalid".data = .error .invalidLength ∧
    parseCloudflareUlid "000000000U0000000000000000".data =
      .error .invalidCharacter ∧
    parseCloudflareUlid "00000000000000000000000000".data =
      .ok { ulid := "00000000000000000000000000".data,
            timestampPart := "00000000000000000000000000".data.take 10,
            randomnessPart := "00000000000000000000000000".data.drop 10,
            timestamp := listVal ("00000000000000000000000000".data.take 10) } :=
  ⟨(C5_parse_validation "invalid".data).1 (by decide),
   (C5_parse_validation "000000000U0000000000000000".data).2.1 (by decide) (by decide),
   ((C5_parse_validation "00000000000000000000000000".data).2.2 (by decide)
     (by decide)).1⟩

/-- C6: the known vector parses to the documented parts and timestamp. -/
theorem C6_known_vector :
    parseCloudflareUlid "01FR9EZ700RPB9GR0NVWG3MYFY".data =
      .ok { ulid := "01FR9EZ700RPB9GR0NVWG3MYFY".data,
            timestampPart := "01FR9EZ700".data,
            randomnessPart := "RPB9GR0NVWG3MYFY".data,
            timestamp := 1640995200000 } := rfl

/-- C7: both generation operations that take a seed time validate the
effective timestamp against `[0, 2^48 - 1]` and fail with the time-range
error when it lies outside; in particular a seed time of `-1` fails. -/
theorem C7_time_range_validation :
    (∀ (rng : Nat → Nat) (seedTime : Option Int) (now : Int),
      (effTime seedTime now < 0 ∨ TIME_MAX < effTime seedTime now) →
      generateCloudflareUlid rng seedTime now = .error .timeRange) ∧
    (∀ (st : MonotonicState) (rng : Nat → Nat) (now : Int),
      (effTime st.seedTime now < 0 ∨ TIME_MAX < effTime st.seedTime now) →
      generateMonotonicUlid st rng now = .error .timeRange) ∧
    (∀ (rng : Nat → Nat) (now : Int),
      generateCloudflareUlid rng (some (-1)) now = .error .timeRange) ∧
    (∀ (st : MonotonicState) (rng : Nat → Nat) (now : Int), st.seedTime = some (-1) →
      generateMonotonicUlid st rng now = .error .timeRange) ∧
    (∀ (rng : Nat → Nat) (now : Int),
      generateSeededUlid rng (some (-1)) now = .error .timeRange) := by
  have hm1 : ∀ now : Int, effTime (some (-1)) now = -1 :=
    fun now => effTime_some (by norm_num) now
  refine ⟨?_, ?_, ?_, ?_, ?_⟩
  · intro rng seed now h
    simp only [generateCloudflareUlid, if_pos h]
  · intro st rng now h
    simp only [generateMonotonicUlid, if_pos h]
  · intro rng now
    have h : effTime (some (-1)) now < 0 ∨ TIME_MAX < effTime (some (-1)) now := by
      left
      rw [hm1]
      norm_num
    simp only [generateCloudflareUlid, if_pos h]
  · intro st rng now hseed
    have h : effTime st.seedTime now < 0 ∨ TIME_MAX < effTime st.seedTime now := by
      left
      rw [hseed, hm1]
      norm_num
    simp only [generateMonotonicUlid, if_pos h]
  · intro rng now
    have h : effTime (some (-1)) now < 0 ∨ TIME_MAX < effTime (some (-1)) now := by
      left
      rw [hm1]
      norm_num
    simp only [generateSeededUlid, ulidLib, if_pos h]

/-- Witness for C7 at seed time `-1`. -/
theorem C7_witness :
    (effTime (some (-1)) 5 < 0 ∨ TIME_MAX < effTime (some (-1)) 5) ∧
    generateCloudflareUlid (fun _ => 0) (some (-1)) 5 = .error .timeRange ∧
    generateMonotonicUlid (MonotonicState.init (some (-1))) (fun _ => 0) 5 =
      .error .timeRange :=
  ⟨by decide, C7_time_range_validation.1 (fun _ => 0) (some (-1)) 5 (by decide),
   C7_time_range_validation.2.2.2.1 (MonotonicState.init (some (-1))) (fun _ => 0) 5 rfl⟩

/-- C8: every ULID produced by the engine's generation operations has length
exactly 26 with a 10-character timePart and 16-character randomPart, and
every character lies in the alphabet; for the monotonic generator this holds
for every reachable (`GoodState`) state under a positive wall clock, and
`GoodState` is preserved (the fresh state satisfies it). -/
theorem C8_ulid_shape :
    (∀ (rng : Nat → Nat) (seedTime : Option Int) (now : Int) (r : GenerationResult),
      generateCloudflareUlid rng seedTime now = .ok r →
      r.ulid.length = 26 ∧ (r.ulid.take 10).length = 10 ∧
      (r.ulid.drop 10).length = 16 ∧ ∀ c ∈ r.ulid, c ∈ ENCODING) ∧
    (∀ (rng : Nat → Nat) (nowLib now : Int) (r : GenerationResult),
      generateStandardUlid rng nowLib now = .ok r →
      r.ulid.length = 26 ∧ (r.ulid.take 10).length = 10 ∧
      (r.ulid.drop 10).length = 16 ∧ ∀ c ∈ r.ulid, c ∈ ENCODING) ∧
    (∀ (rng : Nat → Nat) (seedTime : Option Int) (now : Int) (r : GenerationResult),
      generateSeededUlid rng seedTime now = .ok r →
      r.ulid.length = 26 ∧ (r.ulid.take 10).length = 10 ∧
      (r.ulid.drop 10).length = 16 ∧ ∀ c ∈ r.ulid, c ∈ ENCODING) ∧
    (∀ (st : MonotonicState) (rng : Nat → Nat) (now : Int) (r : GenerationResult)
      (st' : MonotonicState), 0 < now → GoodState st →
      generateMonotonicUlid st rng now = .ok (r, st') →
      (r.ulid.length = 26 ∧ (r.ulid.take 10).length = 10 ∧
       (r.ulid.drop 10).length = 16 ∧ ∀ c ∈ r.ulid, c ∈ ENCODING) ∧ GoodState st') ∧
    (∀ seedTime : Option Int, GoodState (MonotonicState.init seedTime)) := by
  have shape : ∀ (ts : Nat) (rand : List Char), rand.length = 16 →
      (∀ c ∈ rand, c ∈ ENCODING) →
      (encodeTime ts 10 ++ rand).length = 26 ∧
      ((encodeTime ts 10 ++ rand).take 10).length = 10 ∧
      ((encodeTime ts 10 ++ rand).drop 10).length = 16 ∧
      ∀ c ∈ encodeTime ts 10 ++ rand, c ∈ ENCODING := by
    intro ts rand hlen hval
    have h26 : (encodeTime ts 10 ++ rand).length = 26 := by
      rw [List.length_append, encodeTime_length, hlen]
    refine ⟨h26, ?_, ?_, ?_⟩
    · rw [List.length_take, h26]
      norm_num
    · rw [List.length_drop, h26]
    · intro c hc
      rcases List.mem_append.mp hc with h1 | h1
      · exact encodeTime_valid ts 10 c h1
      · exact hval c h1
  have libShape : ∀ (rng : Nat → Nat) (t : Int) (g : List Char), ulidLib rng t = .ok g →
      g.length = 26 ∧ (g.take 10).length = 10 ∧ (g.drop 10).length = 16 ∧
      ∀ c ∈ g, c ∈ ENCODING := by
    intro rng t g hu
    obtain ⟨hg, _, _⟩ := ulidLib_ok rng t g hu
    subst hg
    exact shape t.toNat (encodeRandom rng RANDOM_LEN)
      (encodeRandom_length rng RANDOM_LEN) (encodeRandom_valid rng RANDOM_LEN)
  refine ⟨?_, ?_, ?_, ?_, fun seedTime => Or.inl ⟨rfl, rfl⟩⟩
  · intro rng seedTime now r hgen
    obtain ⟨ha, hb, _, _⟩ := generateCloudflareUlid_ok_decomp rng seedTime now r hgen
    have hrl : r.randomness.length = 16 := by
      rw [hb, encodeRandom_length]
      rfl
    have hrv : ∀ c ∈ r.randomness, c ∈ ENCODING := by
      rw [hb]
      exact encodeRandom_valid rng RANDOM_LEN
    rw [ha]
    exact shape r.timestamp.toNat r.randomness hrl hrv
  · intro rng nowLib now r hgen
    cases hu : ulidLib rng nowLib with
    | error e =>
      simp only [generateStandardUlid, hu] at hgen
      exact absurd hgen (by simp)
    | ok g =>
      simp only [generateStandardUlid, hu, Except.ok.injEq] at hgen
      subst hgen
      exact libShape rng nowLib g hu
  · intro rng seedTime now r hgen
    cases hu : ulidLib rng (effTime seedTime now) with
    | error e =>
      simp only [generateSeededUlid, hu] at hgen
      exact absurd hgen (by simp)
    | ok g =>
      simp only [generateSeededUlid, hu, Except.ok.injEq] at hgen
      subst hgen
      exact libShape rng (effTime seedTime now) g hu
  · intro st rng now r st' hnow hgood hgen
    obtain ⟨hrl, hrv, hgood'⟩ :=
      generateMonotonicUlid_good_shape st rng now r st' (by omega) hgood hgen
    obtain ⟨ha, _, _, _, _⟩ := generateMonotonicUlid_ok_decomp st rng now r st' hgen
    refine ⟨?_, hgood'⟩
    rw [ha]
    exact shape r.timestamp.toNat r.randomness hrl hrv

/-- Witness for C8 on a concrete seeded generation. -/
theorem C8_witness :
    generateCloudflareUlid (fun _ => 0) (some 5) 7 = .ok sampleResult ∧
    (sampleResult.ulid.length = 26 ∧ (sampleResult.ulid.take 10).length = 10 ∧
     (sampleResult.ulid.drop 10).length = 16 ∧
     ∀ c ∈ sampleResult.ulid, c ∈ ENCODING) :=
  ⟨rfl, C8_ulid_shape.1 (fun _ => 0) (some 5) 7 sampleResult rfl⟩

/-- C9 counterexample: `generateStandardUlid` derives its `timestamp` field
from a second wall-clock read (line 19 of `src/ulid-generator.ts`), separate
from the read the library encodes into the ulid; when the clock ticks
between the two reads (library read 5, field read 6) the `timestamp` field
differs from the value decoded from the first 10 ulid characters. -/
theorem C9_counterexample :
    generateStandardUlid (fun _ => 0) 5 6 =
      .ok { ulid := "00000000050000000000000000".data, timestamp := 6,
            randomness := "0000000000000000".data } ∧
    decodeTime (("00000000050000000000000000".data).take 10) = .ok 5 ∧
    ((6 : Int).toNat ≠ (5 : Nat)) :=
  ⟨rfl, rfl, by decide⟩

/-- C9 amended: the `timestamp` field is the exact integer decoded from the
first 10 ulid characters and `randomness` is exactly the last 16 characters
for the seeded, Cloudflare and monotonic operations unconditionally; for
`generateStandardUlid` this holds provided its two wall-clock reads return
the same value. -/
theorem C9_result_fields :
    (∀ (rng : Nat → Nat) (now : Int) (r : GenerationResult),
      generateStandardUlid rng now now = .ok r →
      decodeTime (r.ulid.take 10) = .ok r.timestamp.toNat ∧ 0 ≤ r.timestamp ∧
      r.randomness = r.ulid.drop 10) ∧
    (∀ (rng : Nat → Nat) (seedTime : Option Int) (now : Int) (r : GenerationResult),
      generateSeededUlid rng seedTime now = .ok r →
      decodeTime (r.ulid.take 10) = .ok r.timestamp.toNat ∧ 0 ≤ r.timestamp ∧
      r.randomness = r.ulid.drop 10) ∧
    (∀ (rng : Nat → Nat) (seedTime : Option Int) (now : Int) (r : GenerationResult),
      generateCloudflareUlid rng seedTime now = .ok r →
      decodeTime (r.ulid.take 10) = .ok r.timestamp.toNat ∧ 0 ≤ r.timestamp ∧
      r.randomness = r.ulid.drop 10) ∧
    (∀ (st : MonotonicState) (rng : Nat → Nat) (now : Int) (r : GenerationResult)
      (st' : MonotonicState),
      generateMonotonicUlid st rng now = .ok (r, st') →
      decodeTime (r.ulid.take 10) = .ok r.timestamp.toNat ∧ 0 ≤ r.timestamp ∧
      r.randomness = r.ulid.drop 10) := by
  refine ⟨?_, ?_, ?_, ?_⟩
  · intro rng now r hgen
    cases hu : ulidLib rng now with
    | error e =>
      simp only [generateStandardUlid, hu] at hgen
      exact absurd hgen (by simp)
    | ok g =>
      simp only [generateStandardUlid, hu, Except.ok.injEq] at hgen
      subst hgen
      obtain ⟨hg, h0, hm⟩ := ulidLib_ok rng now g hu
      subst hg
      obtain ⟨hd, hdrop⟩ := fields_ok (encodeRandom rng RANDOM_LEN) h0 hm
      exact ⟨hd, h0, hdrop.symm⟩
  · intro rng seedTime now r hgen
    cases hu : ulidLib rng (effTime seedTime now) with
    | error e =>
      simp only [generateSeededUlid, hu] at hgen
      exact absurd hgen (by simp)
    | ok g =>
      simp only [generateSeededUlid, hu, Except.ok.injEq] at hgen
      subst hgen
      obtain ⟨hg, h0, hm⟩ := ulidLib_ok rng (effTime seedTime now) g hu
      subst hg
      obtain ⟨hd, hdrop⟩ := fields_ok (encodeRandom rng RANDOM_LEN) h0 hm
      exact ⟨hd, h0, hdrop.symm⟩
  · intro rng seedTime now r hgen
    obtain ⟨ha, _, h0, hm⟩ := generateCloudflareUlid_ok_decomp rng seedTime now r hgen
    rw [ha]
    obtain ⟨hd, hdrop⟩ := fields_ok r.randomness h0 hm
    exact ⟨hd, h0, hdrop.symm⟩
  · intro st rng now r st' hgen
    obtain ⟨ha, h0, hm, _, _⟩ := generateMonotonicUlid_ok_decomp st rng now r st' hgen
    rw [ha]
    obtain ⟨hd, hdrop⟩ := fields_ok r.randomness h0 hm
    exact ⟨hd, h0, hdrop.symm⟩

/-- Witness for C9 on a concrete seeded generation. -/
theorem C9_witness :
    generateCloudflareUlid (fun _ => 0) (some 5) 7 = .ok sampleResult ∧
    (decodeTime (sampleResult.ulid.take 10) = .ok sampleResult.timestamp.toNat ∧
     0 ≤ sampleResult.timestamp ∧
     sampleResult.randomness = sampleResult.ulid.drop 10) :=
  ⟨rfl, C9_result_fields.2.2.1 (fun _ => 0) (some 5) 7 sampleResult rfl⟩

/-- C10: passing seed time 0 behaves identically to omitting the seed time —
JS `||` treats 0 as falsy, so the wall clock is used even though 0 is a valid
timestamp. -/
theorem C10_seed_zero_means_clock :
    (∀ (rng : Nat → Nat) (now : Int),
      generateCloudflareUlid rng (some 0) now = generateCloudflareUlid rng none now) ∧
    (∀ (st : MonotonicState) (rng : Nat → Nat) (now : Int),
      (generateMonotonicUlid { st with seedTime := some 0 } rng now).map
          (fun p => (p.1, p.2.lastTime, p.2.lastRandom)) =
        (generateMonotonicUlid { st with seedTime := none } rng now).map
          (fun p => (p.1, p.2.lastTime, p.2.lastRandom))) ∧
    (∀ (rng : Nat → Nat) (now : Int),
      generateSeededUlid rng (some 0) now = generateSeededUlid rng none now) ∧
    (∀ now : Int, effTime (some 0) now = now ∧ effTime none now = now) := by
  refine ⟨?_, ?_, ?_, fun now => ⟨effTime_zero now, rfl⟩⟩
  · intro rng now
    simp only [generateCloudflareUlid, effTime_zero, effTime_none]
  · intro st rng now
    simp only [generateMonotonicUlid, effTime_zero, effTime_none]
    rcases Decidable.em (now < 0 ∨ TIME_MAX < now) with h1 | h1
    · rw [if_pos h1, if_pos h1]
    · rw [if_neg h1, if_neg h1]
      rcases Decidable.em (now = st.lastTime) with h2 | h2
      · rw [if_pos h2, if_pos h2]
        cases incrementBase32 rng st.lastRandom <;> rfl
      · rw [if_neg h2, if_neg h2]
        rfl
  · intro rng now
    simp only [generateSeededUlid, effTime_zero, effTime_none]

example : encodeTime 1 10 = "0000000001".data := by decide
example : decodeTime "01FR9EZ700".data = .ok 1640995200000 := rfl
example : incrementBase32 (fun _ => 0) "000Z".data = .ok "0010".data := rfl
example : incrementBase32 (fun _ => 7) "ZZ".data = .ok "77".data := rfl

end UlidMcp
